import Mathlib

/-!
Shallow embedding of the atlas packing and composition engine
(`pack_images` in `generate_atlas.py`) together with proofs of the
specified properties.

Pixels are RGBA quadruples of naturals; an image is its dimensions plus a
total pixel function (only the `width × height` prefix is meaningful, as
in the source, where a PIL image is a finite buffer).  All arithmetic in
the source is Python arbitrary-precision integer arithmetic on
non-negative quantities, embedded as `Nat`.  The single floating-point
step, `math.ceil(math.sqrt(total_area))`, is embedded as the exact
integer ceiling square root; for any total area below 2^53 the IEEE
double computation is exact, so the embedding agrees with the source on
every realizable input.
-/

namespace Atlas

abbrev RGBA := Nat × Nat × Nat × Nat

/-- The fully transparent pixel `(0,0,0,0)` used as atlas background. -/
def clear : RGBA := (0, 0, 0, 0)

/-- An input image: dimensions plus pixel data, as the packing code sees a
PIL image. -/
structure Img where
  width : Nat
  height : Nat
  pixel : Nat → Nat → RGBA

instance : Inhabited Img := ⟨⟨0, 0, fun _ _ => clear⟩⟩

/-- Heights of the input images, in input order. -/
def heightsOf (images : List Img) : List Nat := images.map Img.height

/-- Widths of the input images, in input order. -/
def widthsOf (images : List Img) : List Nat := images.map Img.width

/-- Ordering for the index sort
`sorted(range(len(images)), key=lambda i: images[i].height, reverse=True)`.
Python's sort is stable and `reverse=True` keeps equal-key elements in
input order, so on the distinct indices `0..n-1` the sort coincides with
sorting by the lexicographic order: height descending, index ascending. -/
def idxLE (hs : List Nat) (i j : Nat) : Prop :=
  hs.getD j 0 < hs.getD i 0 ∨ (hs.getD i 0 = hs.getD j 0 ∧ i ≤ j)

instance (hs : List Nat) : DecidableRel (idxLE hs) := fun i j =>
  inferInstanceAs (Decidable (_ ∨ _))

instance (hs : List Nat) : IsTotal Nat (idxLE hs) :=
  ⟨fun i j => by unfold idxLE; omega⟩

instance (hs : List Nat) : IsTrans Nat (idxLE hs) :=
  ⟨fun a b c hab hbc => by unfold idxLE at *; omega⟩

/-- `sorted_indices`: indices of the images sorted by height descending,
ties broken by original input order.  `idxLE` is a total order on the
distinct indices of `range n`, so any stable sort (such as Python's)
produces exactly its sorted arrangement; the embedding uses insertion
sort, which is structurally recursive and hence computable by the
kernel. -/
def sorted_indices (images : List Img) : List Nat :=
  List.insertionSort (idxLE (heightsOf images)) (List.range images.length)

/-- `total_area = sum((img.width + padding) * (img.height + padding) for img in images)`. -/
def total_area (images : List Img) (padding : Nat) : Nat :=
  (images.map (fun img => (img.width + padding) * (img.height + padding))).sum

/-- Fuel-driven search for the least `j ≥ k` with `n ≤ j * j`; the fuel
bounds the number of upward steps.  Structural recursion keeps it
kernel-computable. -/
def csqrtAux (n : Nat) : Nat → Nat → Nat
  | 0, k => k
  | f + 1, k => if n ≤ k * k then k else csqrtAux n f (k + 1)

/-- `int(math.ceil(math.sqrt(n)))` for a non-negative integer `n`:
the least `k` with `n ≤ k * k`. -/
def ceilSqrt (n : Nat) : Nat := csqrtAux n n 0

/-- Fuel-driven bit length; with fuel at least `n` it computes the number
of binary digits of `n`. -/
def bitLenFuel : Nat → Nat → Nat
  | 0, _ => 0
  | f + 1, n => if n = 0 then 0 else bitLenFuel f (n / 2) + 1

/-- Python's `int.bit_length()` on a non-negative int: `0` for `0`, the
number of binary digits otherwise. -/
def bitLen (n : Nat) : Nat := bitLenFuel n n

/-- `1 << (n - 1).bit_length()` on a Python int `n ≥ 0`.  For `n = 0` the
intermediate is `-1`, whose Python `bit_length()` is `1`, so the result is
`2`; for `n ≥ 1` it is `2 ^ (n-1).bit_length()`, the least power of two
that is `≥ n`. -/
def nextPow2 (n : Nat) : Nat :=
  if n = 0 then 2 else 2 ^ bitLen (n - 1)

/-- `atlas_width` after the power-of-two rounding (line 38 of the source):
the estimated sheet width used by the shelf packer. -/
def atlas_width (images : List Img) (padding : Nat) : Nat :=
  nextPow2 (ceilSqrt (total_area images padding))

/-- The mutable packing state of the source loop: cursor `(current_x,
current_y)`, `row_height`, and the `positions` array (initially
`[None] * len(images)`). -/
structure PackState where
  cx : Nat
  cy : Nat
  rowH : Nat
  positions : List (Option (Nat × Nat))
  deriving DecidableEq

/-- One iteration of the shelf-packing loop (lines 47-56 of the source)
for the image of index `idx`, reading dimensions from the width and
height lists. -/
def packStep (ws hs : List Nat) (padding W : Nat) (s : PackState) (idx : Nat) :
    PackState :=
  let w := ws.getD idx 0
  let h := hs.getD idx 0
  let s1 : PackState :=
    if W < s.cx + w + padding then
      { s with cx := padding, cy := s.cy + s.rowH + padding, rowH := 0 }
    else s
  { cx := s1.cx + w + padding
    cy := s1.cy
    rowH := max s1.rowH h
    positions := s1.positions.set idx (some (s1.cx, s1.cy)) }

/-- Initial packing state: `current_x = current_y = padding`,
`row_height = 0`, `positions = [None] * n`. -/
def initState (n padding : Nat) : PackState :=
  ⟨padding, padding, 0, List.replicate n none⟩

/-- The whole packing loop over a given processing order. -/
def packLoop (ws hs : List Nat) (padding W : Nat) (order : List Nat) : PackState :=
  order.foldl (packStep ws hs padding W) (initState hs.length padding)

/-- The packing state after the loop of `pack_images` has run. -/
def packState (images : List Img) (padding : Nat) : PackState :=
  packLoop (widthsOf images) (heightsOf images) padding
    (atlas_width images padding) (sorted_indices images)

/-- The `positions` list returned by `pack_images` (original index order). -/
def positionsOf (images : List Img) (padding : Nat) : List (Option (Nat × Nat)) :=
  (packState images padding).positions

/-- `atlas_height = current_y + row_height + padding` (line 58). -/
def atlas_height (images : List Img) (padding : Nat) : Nat :=
  (packState images padding).cy + (packState images padding).rowH + padding

/-- `final_size = 1 << (max(atlas_width, atlas_height) - 1).bit_length()`
(lines 62-63). -/
def final_size (images : List Img) (padding : Nat) : Nat :=
  nextPow2 (max (atlas_width images padding) (atlas_height images padding))

/-- The output sheet: dimensions plus the composed pixel function. -/
structure Sheet where
  width : Nat
  height : Nat
  pixel : Nat → Nat → RGBA

/-- `base.paste(img, (x, y))` on a `W × H` base buffer: the pasted region
is clipped to the base's bounds, every other texel keeps its old value. -/
def pasteAt (W H : Nat) (base : Nat → Nat → RGBA) (img : Img) (x y : Nat) :
    Nat → Nat → RGBA :=
  fun p q =>
    if x ≤ p ∧ p < x + img.width ∧ y ≤ q ∧ q < y + img.height ∧ p < W ∧ q < H then
      img.pixel (p - x) (q - y)
    else base p q

/-- The composition loop (lines 65-68): start from a fully transparent
`W × H` buffer and paste every image at its assigned offset, in original
index order. -/
def composePixels (W H : Nat) (items : List (Img × (Nat × Nat))) :
    Nat → Nat → RGBA :=
  items.foldl (fun base it => pasteAt W H base it.1 it.2.1 it.2.2)
    (fun _ _ => clear)

/-- `pack_images(images, padding)`: returns the composed atlas sheet and
the positions list.  The empty input short-circuits to a `1 × 1` fully
transparent sheet with an empty positions list (lines 27-28).  Every
position is in fact assigned by the loop (proved below); reading an
unassigned one is embedded as the default `(0, 0)`. -/
def pack_images (images : List Img) (padding : Nat) :
    Sheet × List (Option (Nat × Nat)) :=
  if images.isEmpty then
    (⟨1, 1, fun _ _ => clear⟩, [])
  else
    let positions := positionsOf images padding
    let n := final_size images padding
    let items := images.zip (positions.map (fun o => o.getD (0, 0)))
    (⟨n, n, composePixels n n items⟩, positions)

/-! ### Specification-side cursor recurrence (for the refinement claim)

These two definitions follow the specification's wording of the shelf
algorithm, to be compared with the packing loop embedded from the source:
"maintain cursor `(cx, cy)` initialized to `(padding, padding)` and
`row_height = 0`; for each image in sorted order: if
`cx + width + padding > W` start a new row (`cx = padding`,
`cy += row_height + padding`, `row_height = 0`); record placement at
`(cx, cy)`; `row_height = max(row_height, height)`;
`cx += width + padding`." -/

/-- One step of the specification's cursor recurrence on a state
`(cx, cy, row_height)` and an image dimension pair `(width, height)`;
returns the new state and the recorded placement. -/
def specPlaceStep (W padding : Nat) (st : Nat × Nat × Nat) (wh : Nat × Nat) :
    (Nat × Nat × Nat) × (Nat × Nat) :=
  let cx := st.1
  let cy := st.2.1
  let rh := st.2.2
  let cx2 := if cx + wh.1 + padding > W then padding else cx
  let cy2 := if cx + wh.1 + padding > W then cy + rh + padding else cy
  let rh2 := if cx + wh.1 + padding > W then 0 else rh
  ((cx2 + wh.1 + padding, cy2, max rh2 wh.2), (cx2, cy2))

/-- The placements produced by the specification's cursor recurrence, in
processing order, over a list of `(width, height)` pairs. -/
def specPlacements (W padding : Nat) :
    (Nat × Nat × Nat) → List (Nat × Nat) → List (Nat × Nat)
  | _, [] => []
  | st, wh :: rest =>
    (specPlaceStep W padding st wh).2 ::
      specPlacements W padding (specPlaceStep W padding st wh).1 rest

/-! ### Invariants of the packing loop -/

/-- Index `i` has been assigned position `(x, y)` in state `s`. -/
def Placed (s : PackState) (i x y : Nat) : Prop :=
  s.positions.getD i none = some (x, y)

/-- Padded bounding boxes of placements `i` at `(x1, y1)` and `j` at
`(x2, y2)` do not intersect: they are separated on the x or the y axis. -/
def Disj (ws hs : List Nat) (padding i j x1 y1 x2 y2 : Nat) : Prop :=
  x1 + ws.getD i 0 + padding ≤ x2 ∨ x2 + ws.getD j 0 + padding ≤ x1 ∨
  y1 + hs.getD i 0 + padding ≤ y2 ∨ y2 + hs.getD j 0 + padding ≤ y1

/-- Loop invariant of the shelf packer: the cursor is right of the left
margin; every assigned placement is either in a completed row (its padded
bottom edge is above the cursor row) or in the current row (its padded
right edge is left of the cursor, its height bounded by `row_height`);
and assigned placements are pairwise padding-separated. -/
def Inv (ws hs : List Nat) (padding : Nat) (s : PackState) : Prop :=
  padding ≤ s.cx ∧
  (∀ i x y, Placed s i x y →
    (y + hs.getD i 0 + padding ≤ s.cy ∨
     (y = s.cy ∧ x + ws.getD i 0 + padding ≤ s.cx ∧ hs.getD i 0 ≤ s.rowH))) ∧
  (∀ i j x1 y1 x2 y2, i ≠ j → Placed s i x1 y1 → Placed s j x2 y2 →
    Disj ws hs padding i j x1 y1 x2 y2)

/-- Horizontal-bound invariant, valid when every processed image fits the
estimated width: every assigned placement's padded right edge is within
`W`. -/
def InvW (ws : List Nat) (padding W : Nat) (s : PackState) : Prop :=
  ∀ i x y, Placed s i x y → x + ws.getD i 0 + padding ≤ W

/-- The point `(p, q)` lies in the (unpadded) rectangle of a pasted item
`(image, (x, y))`. -/
def inRegion (it : Img × Nat × Nat) (p q : Nat) : Prop :=
  it.2.1 ≤ p ∧ p < it.2.1 + it.1.width ∧ it.2.2 ≤ q ∧ q < it.2.2 + it.1.height

/-! ### Concrete inputs used in the scenario and in witnesses -/

/-- Scenario image `img2`: `20 × 50`. -/
def cImg2 : Img := ⟨20, 50, fun _ _ => clear⟩

/-- Scenario image `img1`: `40 × 30`. -/
def cImg1 : Img := ⟨40, 30, fun _ _ => clear⟩

/-- Scenario image `img3`: `10 × 10`. -/
def cImg3 : Img := ⟨10, 10, fun _ _ => clear⟩

/-- The scenario input list, in input order `img2, img1, img3`. -/
def cImgs : List Img := [cImg2, cImg1, cImg3]

/-- A `5 × 1` all-white image, wider than the estimated sheet width it
induces at padding `0`. -/
def wideImg : Img := ⟨5, 1, fun _ _ => (255, 255, 255, 255)⟩

/-- A `0 × 0` image. -/
def zzImg : Img := ⟨0, 0, fun _ _ => clear⟩

/-- A `2 × 2` image with distinguishable pixels. -/
def sqImg : Img := ⟨2, 2, fun dx dy => (dx, dy, 7, 255)⟩

/-- A `2 × 2` image with one pixel content. -/
def dimAImg : Img := ⟨2, 2, fun _ _ => (1, 2, 3, 4)⟩

/-- A `2 × 2` image with other pixel content. -/
def dimBImg : Img := ⟨2, 2, fun _ _ => (9, 9, 9, 9)⟩

/-! ### Helper lemmas: power of two and ceiling square root -/

theorem csqrtAux_spec (n : Nat) :
    ∀ f k, n ≤ (k + f) * (k + f) →
      n ≤ csqrtAux n f k * csqrtAux n f k ∧
      ∀ m, k ≤ m → n ≤ m * m → csqrtAux n f k ≤ m
  | 0, k, h => ⟨by simpa using h, fun m hm _ => hm⟩
  | f + 1, k, h => by
      simp only [csqrtAux]
      split
      · exact ⟨by assumption, fun m hm _ => hm⟩
      · rename_i hk
        have hrec := csqrtAux_spec n f (k + 1) (by
          have : k + 1 + f = k + (f + 1) := by omega
          rw [this]; exact h)
        refine ⟨hrec.1, fun m hm hsq => ?_⟩
        have hkm : k + 1 ≤ m := by
          rcases Nat.eq_or_lt_of_le hm with rfl | hlt
          · exact absurd hsq hk
          · omega
        exact hrec.2 m hkm hsq

theorem le_self_mul_self (n : Nat) : n ≤ n * n := by
  cases n with
  | zero => exact Nat.le_refl 0
  | succ m => exact Nat.le_mul_of_pos_left _ (Nat.succ_pos m)

theorem le_ceilSqrt_sq (n : Nat) : n ≤ ceilSqrt n * ceilSqrt n :=
  (csqrtAux_spec n n 0 (by simpa using le_self_mul_self n)).1

theorem ceilSqrt_least (n m : Nat) (h : n ≤ m * m) : ceilSqrt n ≤ m :=
  (csqrtAux_spec n n 0 (by simpa using le_self_mul_self n)).2 m
    (Nat.zero_le m) h

theorem bitLenFuel_spec :
    ∀ f n, n ≤ f →
      n < 2 ^ bitLenFuel f n ∧ ∀ k, n < 2 ^ k → bitLenFuel f n ≤ k
  | 0, n, hn => by
      have h0 : n = 0 := by omega
      subst h0
      exact ⟨by norm_num, fun k _ => Nat.zero_le k⟩
  | f + 1, n, hn => by
      by_cases h0 : n = 0
      · subst h0
        simp only [bitLenFuel, if_pos rfl]
        exact ⟨by norm_num, fun k _ => Nat.zero_le k⟩
      · have hm : n / 2 ≤ f := by omega
        obtain ⟨ih1, ih2⟩ := bitLenFuel_spec f (n / 2) hm
        simp only [bitLenFuel, if_neg h0]
        constructor
        · have hp : 2 ^ (bitLenFuel f (n / 2) + 1) =
              2 * 2 ^ bitLenFuel f (n / 2) := by ring
          omega
        · intro k hk
          cases k with
          | zero =>
              simp only [pow_zero] at hk
              omega
          | succ k2 =>
              have hp : 2 ^ (k2 + 1) = 2 * 2 ^ k2 := by ring
              have hh : n / 2 < 2 ^ k2 := by omega
              have := ih2 k2 hh
              omega

theorem lt_twoPow_bitLen (n : Nat) : n < 2 ^ bitLen n :=
  (bitLenFuel_spec n n (Nat.le_refl n)).1

theorem bitLen_least (n k : Nat) (h : n < 2 ^ k) : bitLen n ≤ k :=
  (bitLenFuel_spec n n (Nat.le_refl n)).2 k h

theorem le_nextPow2 (n : Nat) : n ≤ nextPow2 n := by
  unfold nextPow2
  split
  · omega
  · have h := lt_twoPow_bitLen (n - 1)
    omega

theorem one_le_nextPow2 (n : Nat) : 1 ≤ nextPow2 n := by
  unfold nextPow2
  split
  · omega
  · exact Nat.one_le_two_pow

theorem nextPow2_isPow2 (n : Nat) : ∃ k, nextPow2 n = 2 ^ k := by
  unfold nextPow2
  split
  · exact ⟨1, rfl⟩
  · exact ⟨bitLen (n - 1), rfl⟩

theorem nextPow2_least (n k : Nat) (h1 : 1 ≤ n) (h : n ≤ 2 ^ k) :
    nextPow2 n ≤ 2 ^ k := by
  unfold nextPow2
  split
  · omega
  · exact Nat.pow_le_pow_right (by omega) (bitLen_least _ _ (by omega))

/-! ### Helper lemmas: list access -/

theorem getD_set_self {α : Type} (l : List (Option α)) (i : Nat)
    (h : i < l.length) (a : Option α) (d : Option α) :
    (l.set i a).getD i d = a := by
  simp [List.getD_eq_getElem?_getD, List.getElem?_set, h]

theorem getD_set_ne {α : Type} (l : List (Option α)) (i j : Nat)
    (hij : i ≠ j) (a : Option α) (d : Option α) :
    (l.set i a).getD j d = l.getD j d := by
  simp [List.getD_eq_getElem?_getD, List.getElem?_set, hij]

theorem getD_replicate_none {α : Type} (n i : Nat) :
    (List.replicate n (none : Option α)).getD i none = none := by
  simp [List.getD_eq_getElem?_getD, List.getElem?_replicate]
  split <;> rfl

theorem widthsOf_getD (images : List Img) (i : Nat) :
    (widthsOf images).getD i 0 = (images.getD i default).width := by
  simp only [widthsOf, List.getD_eq_getElem?_getD, List.getElem?_map]
  cases images[i]? <;> rfl

theorem heightsOf_getD (images : List Img) (i : Nat) :
    (heightsOf images).getD i 0 = (images.getD i default).height := by
  simp only [heightsOf, List.getD_eq_getElem?_getD, List.getElem?_map]
  cases images[i]? <;> rfl

theorem one_le_total_area (images : List Img) (padding : Nat)
    (hne : images ≠ [])
    (hpos : ∀ img ∈ images, 0 < img.width ∧ 0 < img.height) :
    1 ≤ total_area images padding := by
  cases images with
  | nil => exact absurd rfl hne
  | cons a t =>
      have ha := hpos a (List.mem_cons_self a t)
      have h1 : 1 ≤ (a.width + padding) * (a.height + padding) :=
        Nat.one_le_iff_ne_zero.mpr (by
          have := Nat.mul_pos (by omega : 0 < a.width + padding)
            (by omega : 0 < a.height + padding)
          omega)
      simp only [total_area, List.map_cons, List.sum_cons]
      omega

/-! ### The packing loop: structural lemmas -/

theorem placed_of_set {ps : List (Option (Nat × Nat))} {a i x y v1 v2 : Nat}
    (h : (ps.set a (some (v1, v2))).getD i none = some (x, y)) :
    (i = a ∧ x = v1 ∧ y = v2) ∨ (i ≠ a ∧ ps.getD i none = some (x, y)) := by
  by_cases hia : i = a
  · subst hia
    by_cases hlen : i < ps.length
    · rw [getD_set_self _ _ hlen] at h
      refine Or.inl ⟨rfl, ?_, ?_⟩ <;> cases h <;> rfl
    · rw [List.getD_eq_getElem?_getD, List.getElem?_set] at h
      simp [hlen] at h
  · exact Or.inr ⟨hia, by rwa [getD_set_ne _ _ _ (Ne.symm hia)] at h⟩

theorem packStep_break (ws hs : List Nat) (padding W : Nat)
    (s : PackState) (a : Nat) (hbr : W < s.cx + ws.getD a 0 + padding) :
    packStep ws hs padding W s a =
      ⟨padding + ws.getD a 0 + padding, s.cy + s.rowH + padding,
       max 0 (hs.getD a 0),
       s.positions.set a (some (padding, s.cy + s.rowH + padding))⟩ := by
  simp only [packStep]
  rw [if_pos hbr]

theorem packStep_no_break (ws hs : List Nat) (padding W : Nat)
    (s : PackState) (a : Nat) (hbr : ¬ W < s.cx + ws.getD a 0 + padding) :
    packStep ws hs padding W s a =
      ⟨s.cx + ws.getD a 0 + padding, s.cy,
       max s.rowH (hs.getD a 0),
       s.positions.set a (some (s.cx, s.cy))⟩ := by
  simp only [packStep]
  rw [if_neg hbr]

theorem packStep_positions (ws hs : List Nat) (padding W : Nat)
    (s : PackState) (a : Nat) :
    (packStep ws hs padding W s a).positions =
      s.positions.set a (some
        (if W < s.cx + ws.getD a 0 + padding then padding else s.cx,
         if W < s.cx + ws.getD a 0 + padding then s.cy + s.rowH + padding
           else s.cy)) := by
  by_cases hbr : W < s.cx + ws.getD a 0 + padding
  · rw [packStep_break ws hs padding W s a hbr, if_pos hbr, if_pos hbr]
  · rw [packStep_no_break ws hs padding W s a hbr, if_neg hbr, if_neg hbr]

theorem packStep_positions_length (ws hs : List Nat) (padding W : Nat)
    (s : PackState) (a : Nat) :
    (packStep ws hs padding W s a).positions.length = s.positions.length := by
  rw [packStep_positions]
  exact List.length_set s.positions a _

theorem foldl_positions_length (ws hs : List Nat) (padding W : Nat) :
    ∀ (order : List Nat) (s : PackState),
      ((order.foldl (packStep ws hs padding W) s).positions.length =
        s.positions.length)
  | [], _ => rfl
  | a :: t, s => by
      rw [List.foldl_cons, foldl_positions_length ws hs padding W t _,
        packStep_positions_length]

theorem foldl_positions_not_mem (ws hs : List Nat) (padding W : Nat) :
    ∀ (order : List Nat) (s : PackState) (i : Nat), i ∉ order →
      ((order.foldl (packStep ws hs padding W) s).positions.getD i none =
        s.positions.getD i none)
  | [], _, _, _ => rfl
  | a :: t, s, i, hmem => by
      have hia : a ≠ i := fun h => hmem (h ▸ List.mem_cons_self a t)
      have hit : i ∉ t := fun h => hmem (List.mem_cons_of_mem a h)
      rw [List.foldl_cons, foldl_positions_not_mem ws hs padding W t _ i hit,
        packStep_positions, getD_set_ne _ _ _ hia]

theorem foldl_positions_some (ws hs : List Nat) (padding W : Nat) :
    ∀ (order : List Nat) (s : PackState) (i : Nat), i ∈ order →
      i < s.positions.length →
      ∃ x y, (order.foldl (packStep ws hs padding W) s).positions.getD i none =
        some (x, y)
  | [], _, _, hmem, _ => absurd hmem (List.not_mem_nil _)
  | a :: t, s, i, hmem, hlen => by
      by_cases hit : i ∈ t
      · exact foldl_positions_some ws hs padding W t _ i hit
          (by rw [packStep_positions_length]; exact hlen)
      · have hia : i = a := by
          rcases List.mem_cons.mp hmem with h | h
          · exact h
          · exact absurd h hit
        subst hia
        rw [List.foldl_cons, foldl_positions_not_mem ws hs padding W t _ i hit,
          packStep_positions, getD_set_self _ _ hlen]
        exact ⟨_, _, rfl⟩

/-! ### The packing loop: the shelf invariant -/

theorem inv_init (ws hs : List Nat) (padding n : Nat) :
    Inv ws hs padding (initState n padding) := by
  refine ⟨Nat.le_refl _, ?_, ?_⟩
  · intro i x y hp
    rw [Placed, initState, getD_replicate_none] at hp
    cases hp
  · intro i j x1 y1 x2 y2 _ hp
    rw [Placed, initState, getD_replicate_none] at hp
    cases hp

theorem inv_step (ws hs : List Nat) (padding W : Nat) (s : PackState) (a : Nat)
    (h : Inv ws hs padding s) :
    Inv ws hs padding (packStep ws hs padding W s a) := by
  obtain ⟨h1, h2, h3⟩ := h
  by_cases hbr : W < s.cx + ws.getD a 0 + padding
  · rw [packStep_break ws hs padding W s a hbr]
    simp only [Inv, Placed]
    refine ⟨by omega, ?_, ?_⟩
    · intro i x y hp
      rcases placed_of_set hp with ⟨rfl, rfl, rfl⟩ | ⟨hia, hold⟩
      · exact Or.inr ⟨rfl, Nat.le_refl _, Nat.le_max_right _ _⟩
      · rcases h2 i x y hold with hA | ⟨hB1, hB2, hB3⟩
        · exact Or.inl (by omega)
        · exact Or.inl (by omega)
    · intro i j x1 y1 x2 y2 hij hpi hpj
      rcases placed_of_set hpi with ⟨rfl, rfl, rfl⟩ | ⟨hia, holdi⟩ <;>
        rcases placed_of_set hpj with ⟨hja, rfl, rfl⟩ | ⟨hja, holdj⟩
      · exact absurd hja.symm hij
      · rcases h2 j x2 y2 holdj with hA | ⟨hB1, hB2, hB3⟩ <;>
          · simp only [Disj]; omega
      · rcases h2 i x1 y1 holdi with hA | ⟨hB1, hB2, hB3⟩ <;>
          · simp only [Disj]; omega
      · exact h3 i j x1 y1 x2 y2 hij holdi holdj
  · rw [packStep_no_break ws hs padding W s a hbr]
    simp only [Inv, Placed]
    refine ⟨by omega, ?_, ?_⟩
    · intro i x y hp
      rcases placed_of_set hp with ⟨rfl, rfl, rfl⟩ | ⟨hia, hold⟩
      · exact Or.inr ⟨rfl, Nat.le_refl _, Nat.le_max_right _ _⟩
      · rcases h2 i x y hold with hA | ⟨hB1, hB2, hB3⟩
        · exact Or.inl hA
        · exact Or.inr ⟨hB1, by omega, le_trans hB3 (Nat.le_max_left _ _)⟩
    · intro i j x1 y1 x2 y2 hij hpi hpj
      rcases placed_of_set hpi with ⟨rfl, rfl, rfl⟩ | ⟨hia, holdi⟩ <;>
        rcases placed_of_set hpj with ⟨hja, rfl, rfl⟩ | ⟨hja, holdj⟩
      · exact absurd hja.symm hij
      · rcases h2 j x2 y2 holdj with hA | ⟨hB1, hB2, hB3⟩ <;>
          · simp only [Disj]; omega
      · rcases h2 i x1 y1 holdi with hA | ⟨hB1, hB2, hB3⟩ <;>
          · simp only [Disj]; omega
      · exact h3 i j x1 y1 x2 y2 hij holdi holdj

theorem inv_foldl (ws hs : List Nat) (padding W : Nat) :
    ∀ (order : List Nat) (s : PackState), Inv ws hs padding s →
      Inv ws hs padding (order.foldl (packStep ws hs padding W) s)
  | [], _, h => h
  | a :: t, s, h => by
      rw [List.foldl_cons]
      exact inv_foldl ws hs padding W t _ (inv_step ws hs padding W s a h)

theorem invW_step (ws hs : List Nat) (padding W : Nat) (s : PackState) (a : Nat)
    (hfit : ws.getD a 0 + 2 * padding ≤ W) (h : InvW ws padding W s) :
    InvW ws padding W (packStep ws hs padding W s a) := by
  intro i x y hp
  rw [Placed, packStep_positions] at hp
  rcases placed_of_set hp with ⟨rfl, rfl, rfl⟩ | ⟨hia, hold⟩
  · by_cases hbr : W < s.cx + ws.getD i 0 + padding
    · rw [if_pos hbr]; omega
    · rw [if_neg hbr]; omega
  · exact h i x y hold

theorem invW_foldl (ws hs : List Nat) (padding W : Nat) :
    ∀ (order : List Nat) (s : PackState),
      (∀ a ∈ order, ws.getD a 0 + 2 * padding ≤ W) → InvW ws padding W s →
      InvW ws padding W (order.foldl (packStep ws hs padding W) s)
  | [], _, _, h => h
  | a :: t, s, hfit, h => by
      rw [List.foldl_cons]
      exact invW_foldl ws hs padding W t _
        (fun b hb => hfit b (List.mem_cons_of_mem a hb))
        (invW_step ws hs padding W s a (hfit a (List.mem_cons_self a t)) h)

theorem invW_init (ws : List Nat) (padding W n : Nat) :
    InvW ws padding W (initState n padding) := by
  intro i x y hp
  rw [Placed, initState, getD_replicate_none] at hp
  cases hp

/-! ### Consequences of the invariant for the finished packing -/

theorem sorted_indices_perm (images : List Img) :
    (sorted_indices images).Perm (List.range images.length) :=
  List.perm_insertionSort _ _

theorem mem_sorted_indices_lt (images : List Img) (a : Nat)
    (ha : a ∈ sorted_indices images) : a < images.length :=
  List.mem_range.mp (((sorted_indices_perm images).mem_iff).mp ha)

theorem inv_packState (images : List Img) (padding : Nat) :
    Inv (widthsOf images) (heightsOf images) padding (packState images padding) :=
  inv_foldl _ _ _ _ _ _ (inv_init _ _ _ _)

theorem placed_vertical (images : List Img) (padding i x y : Nat)
    (hp : (positionsOf images padding).getD i none = some (x, y)) :
    y + (heightsOf images).getD i 0 ≤ atlas_height images padding := by
  obtain ⟨-, h2, -⟩ := inv_packState images padding
  rcases h2 i x y hp with hA | ⟨hB1, hB2, hB3⟩ <;>
    · rw [atlas_height]; omega

theorem placed_horizontal (images : List Img) (padding : Nat)
    (hfit : ∀ img ∈ images, img.width + 2 * padding ≤ atlas_width images padding)
    (i x y : Nat)
    (hp : (positionsOf images padding).getD i none = some (x, y)) :
    x + (widthsOf images).getD i 0 + padding ≤ atlas_width images padding := by
  have hW : InvW (widthsOf images) padding (atlas_width images padding)
      (packState images padding) := by
    refine invW_foldl _ _ _ _ _ _ ?_ (invW_init _ _ _ _)
    intro a ha
    have han : a < images.length := mem_sorted_indices_lt images a ha
    rw [widthsOf_getD]
    have hmem : images.getD a default ∈ images := by
      rw [List.getD_eq_getElem?_getD, List.getElem?_eq_getElem han]
      exact List.getElem_mem han
    exact hfit _ hmem
  exact hW i x y hp

theorem placed_disjoint (images : List Img) (padding i j x1 y1 x2 y2 : Nat)
    (hij : i ≠ j)
    (hpi : (positionsOf images padding).getD i none = some (x1, y1))
    (hpj : (positionsOf images padding).getD j none = some (x2, y2)) :
    Disj (widthsOf images) (heightsOf images) padding i j x1 y1 x2 y2 := by
  obtain ⟨-, -, h3⟩ := inv_packState images padding
  exact h3 i j x1 y1 x2 y2 hij hpi hpj

theorem positionsOf_length (images : List Img) (padding : Nat) :
    (positionsOf images padding).length = images.length := by
  rw [positionsOf, packState, packLoop, foldl_positions_length]
  simp [initState, heightsOf]

theorem positionsOf_some (images : List Img) (padding i : Nat)
    (hi : i < images.length) :
    ∃ x y, (positionsOf images padding).getD i none = some (x, y) := by
  rw [positionsOf, packState, packLoop]
  refine foldl_positions_some _ _ _ _ _ _ i ?_ ?_
  · exact ((sorted_indices_perm images).mem_iff).mpr (List.mem_range.mpr hi)
  · simp [initState, heightsOf]
    exact hi

theorem pack_images_snd (images : List Img) (padding : Nat) (hne : images ≠ []) :
    (pack_images images padding).2 = positionsOf images padding := by
  rw [pack_images, if_neg (by simp [List.isEmpty_iff, hne])]

theorem pack_images_width (images : List Img) (padding : Nat) (hne : images ≠ []) :
    (pack_images images padding).1.width = final_size images padding := by
  rw [pack_images, if_neg (by simp [List.isEmpty_iff, hne])]

theorem pack_images_height (images : List Img) (padding : Nat) (hne : images ≠ []) :
    (pack_images images padding).1.height = final_size images padding := by
  rw [pack_images, if_neg (by simp [List.isEmpty_iff, hne])]

theorem atlas_height_le_final (images : List Img) (padding : Nat) :
    atlas_height images padding ≤ final_size images padding :=
  le_trans (Nat.le_max_right _ _) (le_nextPow2 _)

theorem atlas_width_le_final (images : List Img) (padding : Nat) :
    atlas_width images padding ≤ final_size images padding :=
  le_trans (Nat.le_max_left _ _) (le_nextPow2 _)

/-! ### Refinement of the loop by the specification's recurrence -/

theorem specStep_state (ws hs : List Nat) (padding W : Nat) (s : PackState)
    (a : Nat) :
    (specPlaceStep W padding (s.cx, s.cy, s.rowH)
        (ws.getD a 0, hs.getD a 0)).1 =
      ((packStep ws hs padding W s a).cx, (packStep ws hs padding W s a).cy,
        (packStep ws hs padding W s a).rowH) ∧
    (specPlaceStep W padding (s.cx, s.cy, s.rowH)
        (ws.getD a 0, hs.getD a 0)).2 =
      (if W < s.cx + ws.getD a 0 + padding then padding else s.cx,
       if W < s.cx + ws.getD a 0 + padding then s.cy + s.rowH + padding
         else s.cy) := by
  by_cases hbr : W < s.cx + ws.getD a 0 + padding
  · rw [packStep_break ws hs padding W s a hbr]
    simp only [specPlaceStep, gt_iff_lt, if_pos hbr]
    exact ⟨trivial, trivial⟩
  · rw [packStep_no_break ws hs padding W s a hbr]
    simp only [specPlaceStep, gt_iff_lt, if_neg hbr]
    exact ⟨trivial, trivial⟩

theorem packLoop_spec (ws hs : List Nat) (padding W : Nat) :
    ∀ (order : List Nat) (s : PackState), order.Nodup →
      (∀ a ∈ order, a < s.positions.length) →
      ∀ k, k < order.length →
      ((order.foldl (packStep ws hs padding W) s).positions.getD
          (order.getD k 0) none =
        some ((specPlacements W padding (s.cx, s.cy, s.rowH)
          (order.map (fun i => (ws.getD i 0, hs.getD i 0)))).getD k (0, 0)))
  | [], _, _, _, k, hk => absurd hk (by simp)
  | a :: t, s, hnd, hlen, k, hk => by
      obtain ⟨hat, hndt⟩ := List.pairwise_cons.mp hnd
      cases k with
      | zero =>
          rw [List.foldl_cons, List.getD_cons_zero,
            foldl_positions_not_mem ws hs padding W t
              (packStep ws hs padding W s a) a
              (fun hmem => (hat a hmem) rfl),
            packStep_positions,
            getD_set_self _ _ (hlen a (List.mem_cons_self a t))]
          simp only [List.map_cons, specPlacements, List.getD_cons_zero]
          rw [(specStep_state ws hs padding W s a).2]
      | succ k2 =>
          have ih := packLoop_spec ws hs padding W t
            (packStep ws hs padding W s a) hndt
            (by
              intro b hb
              rw [packStep_positions_length]
              exact hlen b (List.mem_cons_of_mem a hb))
            k2 (by simpa using hk)
          rw [List.foldl_cons, List.getD_cons_succ]
          simp only [List.map_cons, specPlacements, List.getD_cons_succ]
          rw [(specStep_state ws hs padding W s a).1]
          exact ih

/-! ### Composition lemmas -/

theorem pack_images_pixel (images : List Img) (padding : Nat)
    (hne : images ≠ []) :
    (pack_images images padding).1.pixel =
      composePixels (final_size images padding) (final_size images padding)
        (images.zip ((positionsOf images padding).map
          (fun o => o.getD (0, 0)))) := by
  rw [pack_images, if_neg (by simp [List.isEmpty_iff, hne])]

theorem composeAux_not_in (W H : Nat) :
    ∀ (L : List (Img × Nat × Nat)) (base : Nat → Nat → RGBA) (p q : Nat),
      (∀ it ∈ L, ¬ inRegion it p q) →
      L.foldl (fun b it => pasteAt W H b it.1 it.2.1 it.2.2) base p q = base p q
  | [], _, _, _, _ => rfl
  | it :: t, base, p, q, hno => by
      rw [List.foldl_cons,
        composeAux_not_in W H t _ p q
          (fun e he => hno e (List.mem_cons_of_mem it he))]
      have hnotin := hno it (List.mem_cons_self it t)
      rw [inRegion] at hnotin
      rw [pasteAt, if_neg (by tauto)]

theorem composePixels_get (W H : Nat) (L : List (Img × Nat × Nat)) (i : Nat)
    (hi : i < L.length) (p q : Nat)
    (hin : inRegion L[i] p q) (hW : p < W) (hH : q < H)
    (hothers : ∀ j (hj : j < L.length), j ≠ i → ¬ inRegion L[j] p q) :
    composePixels W H L p q =
      L[i].1.pixel (p - L[i].2.1) (q - L[i].2.2) := by
  have hsplit : L = L.take i ++ L[i] :: L.drop (i + 1) := by
    rw [← List.drop_eq_getElem_cons hi, List.take_append_drop]
  rw [composePixels]
  conv_lhs => rw [hsplit]
  rw [List.foldl_append, List.foldl_cons]
  rw [composeAux_not_in W H (L.drop (i + 1)) _ p q (by
    intro e he
    obtain ⟨j, hj, hje⟩ := List.mem_drop_iff_getElem.mp he
    have hji : i + 1 + j ≠ i := by omega
    have := hothers (i + 1 + j) (by omega) hji
    rwa [hje] at this)]
  rw [inRegion] at hin
  rw [pasteAt, if_pos (by tauto)]

/-! ### Claim theorems -/

/-- C1: on the input `img2 (20×50), img1 (40×30), img3 (10×10)` in that
order with padding 2, `pack_images` processes the images in
height-descending order `img2, img1, img3` (indices `[0, 1, 2]`), the
padded area is 2632 and the estimated width 64, and the result places
`img2` at `(2,2)` with size `20×50`, `img1` at `(2,54)` with size
`40×30`, `img3` at `(44,54)` with size `10×10`, on a `128×128` sheet. -/
theorem concrete_scenario :
    sorted_indices cImgs = [0, 1, 2] ∧
    total_area cImgs 2 = 2632 ∧
    atlas_width cImgs 2 = 64 ∧
    (pack_images cImgs 2).2 = [some (2, 2), some (2, 54), some (44, 54)] ∧
    (pack_images cImgs 2).1.width = 128 ∧
    (pack_images cImgs 2).1.height = 128 ∧
    cImg2.width = 20 ∧ cImg2.height = 50 ∧ cImg1.width = 40 ∧
    cImg1.height = 30 ∧ cImg3.width = 10 ∧ cImg3.height = 10 := by
  refine ⟨?_, ?_, ?_, ?_, ?_, ?_, rfl, rfl, rfl, rfl, rfl, rfl⟩ <;> decide

/-- C5: on the empty input list, `pack_images` succeeds and returns a
`1×1` fully transparent sheet and an empty placement list, for any
padding. -/
theorem empty_input (padding : Nat) :
    (pack_images [] padding).1.width = 1 ∧
    (pack_images [] padding).1.height = 1 ∧
    (∀ x y, (pack_images [] padding).1.pixel x y = clear) ∧
    (pack_images [] padding).2 = [] :=
  ⟨rfl, rfl, fun _ _ => rfl, rfl⟩

/-- C6: for every non-empty input, the sheet is square, its side is the
smallest power of two that is at least `max (W, H)` where `(W, H)` is the
realized packing extent (the estimated width and the realized height),
and in particular the side is an exact power of two. -/
theorem sheet_square_pow2 (images : List Img) (padding : Nat)
    (hne : images ≠ []) :
    (pack_images images padding).1.width = (pack_images images padding).1.height ∧
    (∃ k, (pack_images images padding).1.width = 2 ^ k) ∧
    max (atlas_width images padding) (atlas_height images padding) ≤
      (pack_images images padding).1.width ∧
    (∀ k, max (atlas_width images padding) (atlas_height images padding) ≤ 2 ^ k →
      (pack_images images padding).1.width ≤ 2 ^ k) := by
  rw [pack_images_width images padding hne, pack_images_height images padding hne]
  refine ⟨rfl, nextPow2_isPow2 _, le_nextPow2 _, fun k hk => ?_⟩
  refine nextPow2_least _ k ?_ hk
  exact le_trans (one_le_nextPow2 _) (Nat.le_max_left _ _)

/-- C6 witness: the scenario input instantiates the squareness and
power-of-two theorem. -/
theorem sheet_square_pow2_witness :
    (pack_images cImgs 2).1.width = (pack_images cImgs 2).1.height ∧
    (∃ k, (pack_images cImgs 2).1.width = 2 ^ k) ∧
    max (atlas_width cImgs 2) (atlas_height cImgs 2) ≤
      (pack_images cImgs 2).1.width ∧
    (∀ k, max (atlas_width cImgs 2) (atlas_height cImgs 2) ≤ 2 ^ k →
      (pack_images cImgs 2).1.width ≤ 2 ^ k) :=
  sheet_square_pow2 cImgs 2 (by simp [cImgs])

/-- C7: for every non-empty input of images with positive dimensions and
any padding, the estimated sheet width is the smallest power of two at
least `ceil (sqrt total_area)`, where `ceilSqrt` is characterized as the
least natural whose square bounds the total padded area. -/
theorem estimated_width_spec (images : List Img) (padding : Nat)
    (hne : images ≠ [])
    (hpos : ∀ img ∈ images, 0 < img.width ∧ 0 < img.height) :
    (∃ k, atlas_width images padding = 2 ^ k) ∧
    ceilSqrt (total_area images padding) ≤ atlas_width images padding ∧
    (∀ k, ceilSqrt (total_area images padding) ≤ 2 ^ k →
      atlas_width images padding ≤ 2 ^ k) ∧
    total_area images padding ≤
      ceilSqrt (total_area images padding) *
        ceilSqrt (total_area images padding) ∧
    (∀ m, total_area images padding ≤ m * m →
      ceilSqrt (total_area images padding) ≤ m) := by
  have ht := one_le_total_area images padding hne hpos
  have hcs : 1 ≤ ceilSqrt (total_area images padding) := by
    by_contra hc
    have h0 : ceilSqrt (total_area images padding) = 0 := by omega
    have := le_ceilSqrt_sq (total_area images padding)
    rw [h0] at this
    omega
  rw [atlas_width]
  exact ⟨nextPow2_isPow2 _, le_nextPow2 _,
    fun k hk => nextPow2_least _ k hcs hk, le_ceilSqrt_sq _,
    fun m hm => ceilSqrt_least _ m hm⟩

/-- C2 counterexample: the single `5×1` image with padding `0` is a
non-empty input of images with positive dimensions on which containment
fails: the image is placed at `(0,0)` but the resolved sheet is only
`4×4`, so `x + width ≤ sheet.width` is violated.  (This is the latent
overflow the design notes flag: a placement is never re-fit when the
image is wider than the estimated width.) -/
theorem containment_counterexample :
    (∀ img ∈ [wideImg], 0 < img.width ∧ 0 < img.height) ∧
    ¬ (∀ i x y, (pack_images [wideImg] 0).2.getD i none = some (x, y) →
        x + ([wideImg].getD i default).width ≤
          (pack_images [wideImg] 0).1.width) := by
  constructor
  · intro img h
    simp only [List.mem_cons, List.not_mem_nil, or_false] at h
    subst h
    exact ⟨by decide, by decide⟩
  · intro h
    exact absurd (h 0 0 0 (by decide)) (by decide)

/-- C2 (amended): for every non-empty input of images with positive
dimensions and any padding, provided additionally that every image fits
the estimated width (`width + 2*padding ≤ atlas_width`), each placement
lies fully inside the resolved sheet. -/
theorem containment (images : List Img) (padding : Nat)
    (hne : images ≠ [])
    (hpos : ∀ img ∈ images, 0 < img.width ∧ 0 < img.height)
    (hfit : ∀ img ∈ images, img.width + 2 * padding ≤ atlas_width images padding)
    (i x y : Nat)
    (hp : (pack_images images padding).2.getD i none = some (x, y)) :
    x + (images.getD i default).width ≤ (pack_images images padding).1.width ∧
    y + (images.getD i default).height ≤ (pack_images images padding).1.height := by
  rw [pack_images_snd images padding hne] at hp
  rw [pack_images_width images padding hne, pack_images_height images padding hne]
  constructor
  · have hh := placed_horizontal images padding hfit i x y hp
    rw [widthsOf_getD] at hh
    have := atlas_width_le_final images padding
    omega
  · have hv := placed_vertical images padding i x y hp
    rw [heightsOf_getD] at hv
    have := atlas_height_le_final images padding
    omega

/-- C2 witness: the scenario input satisfies the fit condition and the
placement of `img2` at `(2,2)` is contained in the `128×128` sheet. -/
theorem containment_witness :
    cImgs ≠ [] ∧
    (∀ img ∈ cImgs, 0 < img.width ∧ 0 < img.height) ∧
    (∀ img ∈ cImgs, img.width + 2 * 2 ≤ atlas_width cImgs 2) ∧
    (pack_images cImgs 2).2.getD 0 none = some (2, 2) ∧
    (2 + (cImgs.getD 0 default).width ≤ (pack_images cImgs 2).1.width ∧
     2 + (cImgs.getD 0 default).height ≤ (pack_images cImgs 2).1.height) := by
  have hne : cImgs ≠ [] := by simp [cImgs]
  have hpos : ∀ img ∈ cImgs, 0 < img.width ∧ 0 < img.height := by
    intro img h
    simp only [cImgs, List.mem_cons, List.not_mem_nil, or_false] at h
    rcases h with rfl | rfl | rfl <;> exact ⟨by decide, by decide⟩
  have hfit : ∀ img ∈ cImgs, img.width + 2 * 2 ≤ atlas_width cImgs 2 := by
    intro img h
    simp only [cImgs, List.mem_cons, List.not_mem_nil, or_false] at h
    rcases h with rfl | rfl | rfl <;> decide
  have hp : (pack_images cImgs 2).2.getD 0 none = some (2, 2) := by decide
  exact ⟨hne, hpos, hfit, hp, containment cImgs 2 hne hpos hfit 0 2 2 hp⟩

/-- C3: for every input of images with positive dimensions and any
padding, no two placements' padded bounding boxes intersect: they are
separated on the x or the y axis by at least the image extent plus
padding. -/
theorem non_overlap (images : List Img) (padding : Nat)
    (hpos : ∀ img ∈ images, 0 < img.width ∧ 0 < img.height)
    (i j x1 y1 x2 y2 : Nat) (hij : i ≠ j)
    (hpi : (pack_images images padding).2.getD i none = some (x1, y1))
    (hpj : (pack_images images padding).2.getD j none = some (x2, y2)) :
    x1 + (images.getD i default).width + padding ≤ x2 ∨
    x2 + (images.getD j default).width + padding ≤ x1 ∨
    y1 + (images.getD i default).height + padding ≤ y2 ∨
    y2 + (images.getD j default).height + padding ≤ y1 := by
  cases images with
  | nil => simp [pack_images] at hpi
  | cons a t =>
      rw [pack_images_snd (a :: t) padding (List.cons_ne_nil a t)] at hpi hpj
      have hd := placed_disjoint (a :: t) padding i j x1 y1 x2 y2 hij hpi hpj
      rw [Disj, widthsOf_getD, widthsOf_getD, heightsOf_getD, heightsOf_getD] at hd
      exact hd

/-- C3 witness: in the scenario, the placements of `img2` (index 0) and
`img1` (index 1) have separated padded boxes. -/
theorem non_overlap_witness :
    (∀ img ∈ cImgs, 0 < img.width ∧ 0 < img.height) ∧
    (0 ≠ 1) ∧
    (pack_images cImgs 2).2.getD 0 none = some (2, 2) ∧
    (pack_images cImgs 2).2.getD 1 none = some (2, 54) ∧
    (2 + (cImgs.getD 0 default).width + 2 ≤ 2 ∨
     2 + (cImgs.getD 1 default).width + 2 ≤ 2 ∨
     2 + (cImgs.getD 0 default).height + 2 ≤ 54 ∨
     54 + (cImgs.getD 1 default).height + 2 ≤ 2) := by
  have hpos : ∀ img ∈ cImgs, 0 < img.width ∧ 0 < img.height := by
    intro img h
    simp only [cImgs, List.mem_cons, List.not_mem_nil, or_false] at h
    rcases h with rfl | rfl | rfl <;> exact ⟨by decide, by decide⟩
  have h1 : (pack_images cImgs 2).2.getD 0 none = some (2, 2) := by decide
  have h2 : (pack_images cImgs 2).2.getD 1 none = some (2, 54) := by decide
  exact ⟨hpos, by decide, h1, h2,
    non_overlap cImgs 2 hpos 0 1 2 2 2 54 (by decide) h1 h2⟩

/-- C4 counterexample: a `0×0` image with padding `1` is not rejected:
`pack_images` produces a placement for it (`(1, 2)`), so the core does
not reject zero-dimension images before packing. -/
theorem zero_dim_counterexample :
    zzImg.width = 0 ∧ zzImg.height = 0 ∧
    (pack_images [zzImg] 1).2.getD 0 none = some (1, 2) ∧
    (pack_images [zzImg] 1).2.length = 1 := by
  refine ⟨rfl, rfl, ?_, ?_⟩ <;> decide

/-- C4 (amended): `pack_images` performs no validation of image
dimensions.  Every input image — including one with zero width or zero
height — receives a placement: the positions list has one entry per
input image and every entry is assigned. -/
theorem no_rejection (images : List Img) (padding : Nat) :
    (pack_images images padding).2.length = images.length ∧
    ∀ i, i < images.length →
      ∃ x y, (pack_images images padding).2.getD i none = some (x, y) := by
  cases images with
  | nil => exact ⟨rfl, fun i hi => absurd hi (by simp)⟩
  | cons a t =>
      rw [pack_images_snd (a :: t) padding (List.cons_ne_nil a t)]
      exact ⟨positionsOf_length (a :: t) padding,
        fun i hi => positionsOf_some (a :: t) padding i hi⟩

/-- C4 witness: the amended no-validation theorem instantiated at the
zero-dimension input. -/
theorem no_rejection_witness :
    (pack_images [zzImg] 1).2.length = [zzImg].length ∧
    (0 < [zzImg].length ∧
      ∃ x y, (pack_images [zzImg] 1).2.getD 0 none = some (x, y)) :=
  ⟨(no_rejection [zzImg] 1).1, by decide,
    (no_rejection [zzImg] 1).2 0 (by decide)⟩

/-- C8: the packer processes the images in the order of a stable sort by
height descending (the processing order is a permutation of the input
indices, pairwise sorted by height descending with ties broken by input
order), and the recorded positions are exactly the placements of the
specification's cursor recurrence (starting at `(padding, padding)` with
`row_height = 0`, breaking a row when `cx + width + padding` exceeds the
estimated width) applied to the dimensions in processing order. -/
theorem shelf_order_and_recurrence (images : List Img) (padding : Nat) :
    (sorted_indices images).Perm (List.range images.length) ∧
    (sorted_indices images).Pairwise (fun i j =>
      (heightsOf images).getD j 0 < (heightsOf images).getD i 0 ∨
      ((heightsOf images).getD i 0 = (heightsOf images).getD j 0 ∧ i < j)) ∧
    ∀ k, k < (sorted_indices images).length →
      (positionsOf images padding).getD
          ((sorted_indices images).getD k 0) none =
        some ((specPlacements (atlas_width images padding) padding
          (padding, padding, 0)
          ((sorted_indices images).map (fun i =>
            ((widthsOf images).getD i 0,
             (heightsOf images).getD i 0)))).getD k (0, 0)) := by
  have hperm := sorted_indices_perm images
  have hnd : (sorted_indices images).Nodup :=
    (hperm.nodup_iff).mpr (List.nodup_range _)
  refine ⟨hperm, ?_, ?_⟩
  · have hsorted := List.sorted_insertionSort (idxLE (heightsOf images))
      (List.range images.length)
    exact (List.Pairwise.and hsorted hnd).imp (fun hab => by
      obtain ⟨hle, hne⟩ := hab
      rw [idxLE] at hle
      omega)
  · intro k hk
    rw [positionsOf, packState, packLoop]
    refine packLoop_spec _ _ _ _ _ _ hnd ?_ k hk
    intro a ha
    have : (initState (heightsOf images).length padding).positions.length =
        images.length := by
      simp [initState, heightsOf]
    rw [this]
    exact mem_sorted_indices_lt images a ha

/-- C8 witness: the order-and-recurrence theorem instantiated on the
scenario input. -/
theorem shelf_order_and_recurrence_witness :
    (sorted_indices cImgs).Perm (List.range cImgs.length) ∧
    (sorted_indices cImgs).Pairwise (fun i j =>
      (heightsOf cImgs).getD j 0 < (heightsOf cImgs).getD i 0 ∨
      ((heightsOf cImgs).getD i 0 = (heightsOf cImgs).getD j 0 ∧ i < j)) ∧
    ∀ k, k < (sorted_indices cImgs).length →
      (positionsOf cImgs 2).getD ((sorted_indices cImgs).getD k 0) none =
        some ((specPlacements (atlas_width cImgs 2) 2 (2, 2, 0)
          ((sorted_indices cImgs).map (fun i =>
            ((widthsOf cImgs).getD i 0,
             (heightsOf cImgs).getD i 0)))).getD k (0, 0)) :=
  shelf_order_and_recurrence cImgs 2

/-- C9 counterexample: on the single `5×1` all-white image with padding
`0` — a valid input with positive dimensions — the placement is `(0,0)`
but the resolved sheet is `4×4`, so the pasted region is clipped and the
sheet pixel at offset `(4,0)` of the placement is transparent while the
source pixel there is white: extraction does not reproduce the source
buffer. -/
theorem fidelity_counterexample :
    (∀ img ∈ [wideImg], 0 < img.width ∧ 0 < img.height) ∧
    (pack_images [wideImg] 0).2.getD 0 none = some (0, 0) ∧
    4 < ([wideImg].getD 0 default).width ∧ 0 < ([wideImg].getD 0 default).height ∧
    (pack_images [wideImg] 0).1.pixel (0 + 4) (0 + 0) ≠
      ([wideImg].getD 0 default).pixel 4 0 := by
  refine ⟨?_, by decide, by decide, by decide, by decide⟩
  intro img h
  simp only [List.mem_cons, List.not_mem_nil, or_false] at h
  subst h
  exact ⟨by decide, by decide⟩

/-- C9 (amended): for every input of images with positive dimensions and
any padding, provided additionally that every image fits the estimated
width (`width + 2*padding ≤ atlas_width`), the composed sheet reproduces
every source image exactly: the sheet pixel at each offset inside a
placement equals the source image's pixel at that offset. -/
theorem pixel_fidelity (images : List Img) (padding : Nat)
    (hpos : ∀ img ∈ images, 0 < img.width ∧ 0 < img.height)
    (hfit : ∀ img ∈ images, img.width + 2 * padding ≤ atlas_width images padding)
    (i : Nat) (hi : i < images.length) (x y dx dy : Nat)
    (hp : (pack_images images padding).2.getD i none = some (x, y))
    (hdx : dx < (images.getD i default).width)
    (hdy : dy < (images.getD i default).height) :
    (pack_images images padding).1.pixel (x + dx) (y + dy) =
      (images.getD i default).pixel dx dy := by
  have hne : images ≠ [] := by
    intro h
    rw [h] at hi
    simp at hi
  rw [pack_images_snd images padding hne] at hp
  rw [pack_images_pixel images padding hne]
  have hgetD : ∀ j (hj : j < images.length),
      images.getD j default = images[j] :=
    fun j hj => List.getD_eq_getElem images default hj
  rw [hgetD i hi] at hdx hdy
  have hplen : (positionsOf images padding).length = images.length :=
    positionsOf_length images padding
  have hLlen : (images.zip ((positionsOf images padding).map
      (fun o => o.getD (0, 0)))).length = images.length := by
    rw [List.length_zip, List.length_map, hplen]
    exact Nat.min_self _
  have hiL : i < (images.zip ((positionsOf images padding).map
      (fun o => o.getD (0, 0)))).length := by omega
  -- the i-th zipped item is the i-th image paired with its placement
  have hitem : ∀ j (hjz : j < (images.zip ((positionsOf images padding).map
        (fun o => o.getD (0, 0)))).length) (hj : j < images.length) (xj yj : Nat),
      (positionsOf images padding).getD j none = some (xj, yj) →
      (images.zip ((positionsOf images padding).map
        (fun o => o.getD (0, 0))))[j] = (images[j], (xj, yj)) := by
    intro j hjz hj xj yj hpj
    rw [List.getElem_zip, List.getElem_map]
    rw [List.getD_eq_getElem _ none (by omega)] at hpj
    rw [hpj]
    rfl
  have hLi := hitem i hiL hi x y hp
  -- the queried point lies in the i-th region
  have hin : inRegion ((images.zip ((positionsOf images padding).map
      (fun o => o.getD (0, 0))))[i]) (x + dx) (y + dy) := by
    rw [hLi, inRegion]
    refine ⟨Nat.le_add_right _ _, ?_, Nat.le_add_right _ _, ?_⟩
    · show x + dx < x + images[i].width
      omega
    · show y + dy < y + images[i].height
      omega
  -- the queried point lies inside the sheet
  have hxb : x + (widthsOf images).getD i 0 + padding ≤ atlas_width images padding :=
    placed_horizontal images padding hfit i x y hp
  have hyb : y + (heightsOf images).getD i 0 ≤ atlas_height images padding :=
    placed_vertical images padding i x y hp
  rw [widthsOf_getD, hgetD i hi] at hxb
  rw [heightsOf_getD, hgetD i hi] at hyb
  have hW : x + dx < final_size images padding := by
    have := atlas_width_le_final images padding
    omega
  have hH : y + dy < final_size images padding := by
    have := atlas_height_le_final images padding
    omega
  -- no other item's region contains the point
  have hothers : ∀ j (hj : j < (images.zip ((positionsOf images padding).map
      (fun o => o.getD (0, 0)))).length), j ≠ i →
      ¬ inRegion ((images.zip ((positionsOf images padding).map
        (fun o => o.getD (0, 0))))[j]) (x + dx) (y + dy) := by
    intro j hj hji hreg
    have hjlen : j < images.length := by omega
    obtain ⟨xj, yj, hpj⟩ := positionsOf_some images padding j hjlen
    rw [hitem j hj hjlen xj yj hpj, inRegion] at hreg
    have hr1 : xj ≤ x + dx := hreg.1
    have hr2 : x + dx < xj + images[j].width := hreg.2.1
    have hr3 : yj ≤ y + dy := hreg.2.2.1
    have hr4 : y + dy < yj + images[j].height := hreg.2.2.2
    have hd := placed_disjoint images padding i j x y xj yj
      (fun h => hji h.symm) hp hpj
    rw [Disj, widthsOf_getD, widthsOf_getD, heightsOf_getD, heightsOf_getD,
      hgetD i hi, hgetD j hjlen] at hd
    omega
  rw [composePixels_get (final_size images padding) (final_size images padding)
    _ i hiL (x + dx) (y + dy) hin hW hH hothers, hLi, hgetD i hi]
  simp

/-- C9 witness: the single `2×2` image with distinguishable pixels at
padding `1` satisfies the fit condition; extracting the placement offset
`(0,0)` from the composed sheet gives the source pixel. -/
theorem pixel_fidelity_witness :
    (∀ img ∈ [sqImg], 0 < img.width ∧ 0 < img.height) ∧
    (∀ img ∈ [sqImg], img.width + 2 * 1 ≤ atlas_width [sqImg] 1) ∧
    (0 < [sqImg].length) ∧
    (pack_images [sqImg] 1).2.getD 0 none = some (1, 1) ∧
    (0 < ([sqImg].getD 0 default).width) ∧
    (0 < ([sqImg].getD 0 default).height) ∧
    (pack_images [sqImg] 1).1.pixel (1 + 0) (1 + 0) =
      ([sqImg].getD 0 default).pixel 0 0 := by
  have hpos : ∀ img ∈ [sqImg], 0 < img.width ∧ 0 < img.height := by
    intro img h
    simp only [List.mem_cons, List.not_mem_nil, or_false] at h
    subst h
    exact ⟨by decide, by decide⟩
  have hfit : ∀ img ∈ [sqImg], img.width + 2 * 1 ≤ atlas_width [sqImg] 1 := by
    intro img h
    simp only [List.mem_cons, List.not_mem_nil, or_false] at h
    subst h
    decide
  have hp : (pack_images [sqImg] 1).2.getD 0 none = some (1, 1) := by decide
  exact ⟨hpos, hfit, by decide, hp, by decide, by decide,
    pixel_fidelity [sqImg] 1 hpos hfit 0 (by decide) 1 1 0 0 hp
      (by decide) (by decide)⟩

/-- C7 witness: the scenario input instantiates the estimated-width
theorem. -/
theorem estimated_width_spec_witness :
    (∃ k, atlas_width cImgs 2 = 2 ^ k) ∧
    ceilSqrt (total_area cImgs 2) ≤ atlas_width cImgs 2 ∧
    (∀ k, ceilSqrt (total_area cImgs 2) ≤ 2 ^ k →
      atlas_width cImgs 2 ≤ 2 ^ k) ∧
    total_area cImgs 2 ≤ ceilSqrt (total_area cImgs 2) * ceilSqrt (total_area cImgs 2) ∧
    (∀ m, total_area cImgs 2 ≤ m * m → ceilSqrt (total_area cImgs 2) ≤ m) :=
  estimated_width_spec cImgs 2 (by simp [cImgs]) (by
    intro img h
    simp only [cImgs, List.mem_cons, List.not_mem_nil, or_false] at h
    rcases h with rfl | rfl | rfl <;> exact ⟨by decide, by decide⟩)

/-! ### Dimension-only dependence -/

theorem total_area_zip (padding : Nat) :
    ∀ images : List Img, total_area images padding =
      (((widthsOf images).zip (heightsOf images)).map
        (fun wh => (wh.1 + padding) * (wh.2 + padding))).sum
  | [] => rfl
  | a :: t => by
      simp only [total_area, widthsOf, heightsOf, List.map_cons,
        List.zip_cons_cons, List.sum_cons]
      have := total_area_zip padding t
      simp only [total_area, widthsOf, heightsOf] at this
      rw [this]

/-- C10: two input lists of the same length whose images agree pairwise
in width and height produce, for the same padding, identical position
lists and identical sheet dimensions: the layout never depends on pixel
contents. -/
theorem dims_only (imgs1 imgs2 : List Img) (padding : Nat)
    (hlen : imgs1.length = imgs2.length)
    (hdims : ∀ i, i < imgs1.length →
      (imgs1.getD i default).width = (imgs2.getD i default).width ∧
      (imgs1.getD i default).height = (imgs2.getD i default).height) :
    (pack_images imgs1 padding).2 = (pack_images imgs2 padding).2 ∧
    (pack_images imgs1 padding).1.width = (pack_images imgs2 padding).1.width ∧
    (pack_images imgs1 padding).1.height =
      (pack_images imgs2 padding).1.height := by
  have hw : widthsOf imgs1 = widthsOf imgs2 := by
    refine List.ext_getElem (by simp [widthsOf, hlen]) ?_
    intro n h1 h2
    rw [widthsOf] at h1 h2
    simp only [widthsOf, List.getElem_map]
    have hn1 : n < imgs1.length := by simpa using h1
    have hn2 : n < imgs2.length := by simpa using h2
    have := (hdims n hn1).1
    rwa [List.getD_eq_getElem imgs1 default hn1,
      List.getD_eq_getElem imgs2 default hn2] at this
  have hh : heightsOf imgs1 = heightsOf imgs2 := by
    refine List.ext_getElem (by simp [heightsOf, hlen]) ?_
    intro n h1 h2
    rw [heightsOf] at h1 h2
    simp only [heightsOf, List.getElem_map]
    have hn1 : n < imgs1.length := by simpa using h1
    have hn2 : n < imgs2.length := by simpa using h2
    have := (hdims n hn1).2
    rwa [List.getD_eq_getElem imgs1 default hn1,
      List.getD_eq_getElem imgs2 default hn2] at this
  have hta : total_area imgs1 padding = total_area imgs2 padding := by
    rw [total_area_zip, total_area_zip, hw, hh]
  have haw : atlas_width imgs1 padding = atlas_width imgs2 padding := by
    rw [atlas_width, atlas_width, hta]
  have hsi : sorted_indices imgs1 = sorted_indices imgs2 := by
    simp only [sorted_indices]
    rw [hh, hlen]
  have hps : packState imgs1 padding = packState imgs2 padding := by
    simp only [packState]
    rw [hw, hh, haw, hsi]
  have hpos : positionsOf imgs1 padding = positionsOf imgs2 padding := by
    simp only [positionsOf]
    rw [hps]
  have hfs : final_size imgs1 padding = final_size imgs2 padding := by
    simp only [final_size, atlas_height]
    rw [hps, haw]
  cases imgs1 with
  | nil =>
      cases imgs2 with
      | nil => exact ⟨rfl, rfl, rfl⟩
      | cons b t2 => simp at hlen
  | cons a t1 =>
      cases imgs2 with
      | nil => simp at hlen
      | cons b t2 =>
          rw [pack_images_snd _ padding (List.cons_ne_nil a t1),
            pack_images_snd _ padding (List.cons_ne_nil b t2),
            pack_images_width _ padding (List.cons_ne_nil a t1),
            pack_images_width _ padding (List.cons_ne_nil b t2),
            pack_images_height _ padding (List.cons_ne_nil a t1),
            pack_images_height _ padding (List.cons_ne_nil b t2)]
          exact ⟨hpos, hfs, hfs⟩

/-- C10 witness: two single-image lists with equal `2×2` dimensions but
different pixel contents produce the same positions and sheet size. -/
theorem dims_only_witness :
    ([dimAImg].length = [dimBImg].length) ∧
    (∀ i, i < [dimAImg].length →
      ([dimAImg].getD i default).width = ([dimBImg].getD i default).width ∧
      ([dimAImg].getD i default).height = ([dimBImg].getD i default).height) ∧
    ((pack_images [dimAImg] 1).2 = (pack_images [dimBImg] 1).2 ∧
     (pack_images [dimAImg] 1).1.width = (pack_images [dimBImg] 1).1.width ∧
     (pack_images [dimAImg] 1).1.height = (pack_images [dimBImg] 1).1.height) := by
  have hdims : ∀ i, i < [dimAImg].length →
      ([dimAImg].getD i default).width = ([dimBImg].getD i default).width ∧
      ([dimAImg].getD i default).height = ([dimBImg].getD i default).height := by
    intro i hi
    have h0 : i = 0 := by simpa using hi
    subst h0
    exact ⟨rfl, rfl⟩
  exact ⟨rfl, hdims, dims_only [dimAImg] [dimBImg] 1 rfl hdims⟩

end Atlas
